import Mathlib

/-!
# Verification of the Lure proxy packet codec and session logic

A shallow embedding of the Lure Minecraft reverse proxy
(`src/connection/codec.rs`, `src/connection/connection.rs`, `src/lure.rs`).
Byte strings are modelled as `List Nat` (each element a byte value), machine
integers as `Nat`, fallible operations as `Except`/`Option` or an explicit
success flag.  External collaborators (zlib deflate/inflate, the AES block
function inside CFB8, SHA-1, RSA, socket-address parsing) are parameters of
the definitions; everything the repository itself implements is translated
from the source.
-/

namespace Lure

/-- `MAX_PACKET_SIZE` from valence_protocol: `2 ^ 21 - 1`. -/
def MAX_PACKET_SIZE : Nat := 2097151

/-! ## VarInt codec

Modelled from the spec (valence_protocol's `VarInt` is an external
collaborator of this repository): little-endian base-128 with a continuation
bit in the MSB of every byte; the decoder reads at most 5 bytes, accumulates
into a 32-bit value, and fails with `tooLarge` when the fifth byte still has
the continuation bit set.  `written_size` equals the number of bytes the
canonical encoding emits (spec section 4.A). -/

/-- Encoding loop with explicit fuel (kept structural so that concrete
frames evaluate); a u32 value needs at most 5 iterations, so the fuel of 6
used by `varIntEncode` never runs out for the 32-bit values of the code. -/
def varIntEncodeAux (fuel : Nat) (v : Nat) : List Nat :=
  match fuel with
  | 0 => []
  | fuel + 1 => if v < 128 then [v] else (v % 128 + 128) :: varIntEncodeAux fuel (v / 128)

/-- Canonical varint encoding of a value (the u32 reinterpretation of the
i32 that the Rust code passes around). -/
def varIntEncode (v : Nat) : List Nat := varIntEncodeAux 6 v

/-- Result of `VarInt::decode_partial`. -/
inductive VarIntRes where
  | ok (val : Nat) (rest : List Nat)
  | incomplete
  | tooLarge
deriving DecidableEq

/-- The decode loop of `VarInt::decode_partial`: `i` is the index of the next
byte (bit shift `7 * i`), `acc` the value accumulated so far; the 32-bit `|=`
is modelled by reducing modulo `2 ^ 32`. -/
def varIntDecodeFrom (i acc : Nat) : List Nat → VarIntRes
  | [] => .incomplete
  | b :: rest =>
    let acc' := (acc + b % 128 * 128 ^ i) % 2 ^ 32
    if b % 256 < 128 then .ok acc' rest
    else if i = 4 then .tooLarge
    else varIntDecodeFrom (i + 1) acc' rest

/-- `VarInt::written_size`: the length of the canonical encoding. -/
def writtenSize (v : Nat) : Nat := (varIntEncode v).length

theorem varIntEncode_zero : varIntEncode 0 = [0] := by decide

/-- Decoding the output of the encoding loop (prepended to any `rest`) from
an intermediate loop state succeeds and consumes exactly the encoding. -/
theorem varIntDecodeFrom_encodeAux :
    ∀ (fuel v i acc : Nat) (rest : List Nat), 1 ≤ fuel → v < 128 ^ fuel →
    v < 128 ^ (5 - i) → i ≤ 4 →
    varIntDecodeFrom i acc (varIntEncodeAux fuel v ++ rest) =
      .ok ((acc + v * 128 ^ i) % 2 ^ 32) rest := by
  intro fuel
  induction fuel with
  | zero => intro v i acc rest hf1 _ _ _; omega
  | succ fuel ih =>
    intro v i acc rest _ hf hv hi
    by_cases h : v < 128
    · simp only [varIntEncodeAux, if_pos h, List.cons_append, List.nil_append,
        varIntDecodeFrom]
      rw [if_pos (by omega)]
      congr 1
      rw [Nat.mod_eq_of_lt h]
    · simp only [varIntEncodeAux, if_neg h, List.cons_append, varIntDecodeFrom]
      rw [if_neg (by omega)]
      have hi4 : i ≠ 4 := by
        intro he
        subst he
        simp only [show (5 : Nat) - 4 = 1 from rfl, pow_one] at hv
        omega
      rw [if_neg hi4]
      have hmod : (v % 128 + 128) % 128 = v % 128 := by omega
      rw [hmod]
      have hrec := ih (v / 128) (i + 1) ((acc + v % 128 * 128 ^ i) % 2 ^ 32) rest
        (by
          by_contra hc
          have : fuel = 0 := by omega
          subst this
          simp at hf
          omega)
        (by
          have : 128 ^ (fuel + 1) = 128 ^ fuel * 128 := by ring
          rw [this] at hf
          exact Nat.div_lt_of_lt_mul (by omega))
        (by
          have h51 : 5 - i = (5 - (i + 1)) + 1 := by omega
          rw [h51, pow_succ] at hv
          exact Nat.div_lt_of_lt_mul (by omega))
        (by omega)
      rw [hrec]
      congr 1
      rw [Nat.mod_add_mod]
      congr 1
      have hsplit : v % 128 * 128 ^ i + v / 128 * 128 ^ (i + 1) = v * 128 ^ i := by
        conv_rhs => rw [← Nat.mod_add_div v 128]
        ring
      omega

/-- Round trip for values below `2 ^ 32` starting from the initial loop
state (the form every framing proof uses). -/
theorem varIntDecode_encode (v : Nat) (rest : List Nat) (hv : v < 2 ^ 32) :
    varIntDecodeFrom 0 0 (varIntEncode v ++ rest) = .ok v rest := by
  have h128 : (2 : Nat) ^ 32 < 128 ^ 5 := by norm_num
  have h := varIntDecodeFrom_encodeAux 6 v 0 0 rest (by omega)
    (by calc v < 2 ^ 32 := hv
      _ < 128 ^ 5 := h128
      _ ≤ 128 ^ 6 := Nat.pow_le_pow_right (by omega) (by omega))
    (by simpa using (by omega : v < 2 ^ 32 → v < 128 ^ 5) hv)
    (by omega)
  rw [varIntEncode, h]
  congr 1
  simp
  omega

/-- A successful decode consumed at least one byte, the rest is a suffix at
that offset, and the value is bounded by the number of base-128 digits that
fit in the consumed bytes. -/
theorem varIntDecodeFrom_consumed :
    ∀ (l : List Nat) (i acc v : Nat) (r : List Nat), acc < 128 ^ i → i ≤ 4 →
    varIntDecodeFrom i acc l = .ok v r →
    ∃ k, 1 ≤ k ∧ k ≤ l.length ∧ l.drop k = r ∧ v < 128 ^ (i + k) ∧
      v < 2 ^ 32 := by
  intro l
  induction l with
  | nil => intro i acc v r _ _ h; simp [varIntDecodeFrom] at h
  | cons b rest ih =>
    intro i acc v r hacc hi h
    simp only [varIntDecodeFrom] at h
    by_cases hb : b % 256 < 128
    · rw [if_pos hb] at h
      cases h
      refine ⟨1, by omega, by simp, by simp, ?_,
        Nat.mod_lt _ (by norm_num)⟩
      have hbound : acc + b % 128 * 128 ^ i < 128 ^ (i + 1) := by
        have h1 : b % 128 ≤ 127 := by omega
        have h2 : b % 128 * 128 ^ i ≤ 127 * 128 ^ i :=
          Nat.mul_le_mul_right _ h1
        have h3 : 128 ^ (i + 1) = 128 * 128 ^ i := by ring
        have h4 : (0:Nat) < 128 ^ i := Nat.pos_pow_of_pos _ (by omega)
        omega
      calc (acc + b % 128 * 128 ^ i) % 2 ^ 32 ≤ acc + b % 128 * 128 ^ i :=
            Nat.mod_le _ _
        _ < 128 ^ (i + 1) := hbound
    · rw [if_neg hb] at h
      by_cases hi4 : i = 4
      · rw [if_pos hi4] at h; cases h
      · rw [if_neg hi4] at h
        have hacc' : (acc + b % 128 * 128 ^ i) % 2 ^ 32 < 128 ^ (i + 1) := by
          have h1 : b % 128 ≤ 127 := by omega
          have h2 : b % 128 * 128 ^ i ≤ 127 * 128 ^ i :=
            Nat.mul_le_mul_right _ h1
          have h3 : 128 ^ (i + 1) = 128 * 128 ^ i := by ring
          have h4 : (0:Nat) < 128 ^ i := Nat.pos_pow_of_pos _ (by omega)
          calc (acc + b % 128 * 128 ^ i) % 2 ^ 32 ≤ acc + b % 128 * 128 ^ i :=
                Nat.mod_le _ _
            _ < 128 ^ (i + 1) := by omega
        obtain ⟨k, hk1, hkl, hkdrop, hkv, hk32⟩ :=
          ih (i + 1) _ v r hacc' (by omega) h
        refine ⟨k + 1, by omega, by simp; omega, by simpa using hkdrop, ?_, hk32⟩
        have : i + 1 + k = i + (k + 1) := by omega
        rwa [this] at hkv

/-- The canonical encoding is the shortest: `writtenSize v ≤ k` whenever `v`
fits in `k` base-128 digits (`k ≤ 5`, which covers every decodable value). -/
theorem writtenSize_le (v k : Nat) (hk1 : 1 ≤ k) (hk5 : k ≤ 5)
    (hv : v < 128 ^ k) : writtenSize v ≤ k := by
  have haux : ∀ (fuel w j : Nat), 1 ≤ j → j ≤ fuel → w < 128 ^ j →
      (varIntEncodeAux fuel w).length ≤ j := by
    intro fuel
    induction fuel with
    | zero => intro w j h1 h2 _; omega
    | succ fuel ih =>
      intro w j h1 h2 hw
      by_cases h : w < 128
      · simp [varIntEncodeAux, if_pos h]
        omega
      · simp only [varIntEncodeAux, if_neg h, List.length_cons]
        have hj2 : 2 ≤ j := by
          by_contra hc
          have : j = 1 := by omega
          subst this
          simp at hw
          omega
        have := ih (w / 128) (j - 1) (by omega) (by omega)
          (by
            have : 128 ^ j = 128 ^ (j - 1) * 128 := by
              rw [← pow_succ]
              congr 1
              omega
            rw [this] at hw
            exact Nat.div_lt_of_lt_mul (by omega))
        omega
  exact haux 6 v k hk1 (by omega) hv

/-! ## AES-128/CFB8 stream cipher

`type Cipher = cfb8::Cfb8<aes::Aes128>` (codec.rs line 9).  CFB8 keeps a
16-byte shift register seeded with the IV; each step feeds the register to
the block cipher, XORs its first output byte with the plaintext byte, and
shifts the resulting ciphertext byte into the register.  The AES block
function is an external collaborator and appears as the parameter
`F : List Nat → Nat` (register contents to keystream byte); both sides of a
connection use the same key, hence the same `F` and the same initial
register (the code passes the key as both key and IV). -/

/-- CFB8 encryption of a byte stream: returns the ciphertext and the final
shift register. -/
def cfb8Encrypt (F : List Nat → Nat) (reg : List Nat) : List Nat → List Nat × List Nat
  | [] => ([], reg)
  | p :: ps =>
    let c := p ^^^ F reg
    let r := cfb8Encrypt F (reg.drop 1 ++ [c]) ps
    (c :: r.1, r.2)

/-- CFB8 decryption: the register is updated with the ciphertext byte, making
it the exact inverse of `cfb8Encrypt` under the same initial register. -/
def cfb8Decrypt (F : List Nat → Nat) (reg : List Nat) : List Nat → List Nat × List Nat
  | [] => ([], reg)
  | c :: cs =>
    let p := c ^^^ F reg
    let r := cfb8Decrypt F (reg.drop 1 ++ [c]) cs
    (p :: r.1, r.2)

theorem cfb8Encrypt_length (F : List Nat → Nat) :
    ∀ (reg ps : List Nat), (cfb8Encrypt F reg ps).1.length = ps.length := by
  intro reg ps
  induction ps generalizing reg with
  | nil => simp [cfb8Encrypt]
  | cons p ps ih => simp [cfb8Encrypt, ih]

theorem cfb8Decrypt_length (F : List Nat → Nat) :
    ∀ (reg cs : List Nat), (cfb8Decrypt F reg cs).1.length = cs.length := by
  intro reg cs
  induction cs generalizing reg with
  | nil => simp [cfb8Decrypt]
  | cons c cs ih => simp [cfb8Decrypt, ih]

/-- Decrypting what was encrypted from the same register recovers the
plaintext and leaves both registers in the same state. -/
theorem cfb8_roundtrip (F : List Nat → Nat) :
    ∀ (reg ps : List Nat),
    cfb8Decrypt F reg (cfb8Encrypt F reg ps).1 = (ps, (cfb8Encrypt F reg ps).2) := by
  intro reg ps
  induction ps generalizing reg with
  | nil => simp [cfb8Encrypt, cfb8Decrypt]
  | cons p ps ih =>
    simp only [cfb8Encrypt, cfb8Decrypt]
    have hxor : p ^^^ F reg ^^^ F reg = p := by
      rw [Nat.xor_assoc, Nat.xor_self, Nat.xor_zero]
    rw [hxor, ih]

/-! ## PacketEncoder (codec.rs lines 11-161)

The zlib deflate at `Compression::new(4)` is an external collaborator and
appears as the parameter `compress`.  `BytesMut` in-place shifts
(`put_bytes` / `copy_within` followed by writing the varint prefix over the
reserved space) are modelled by their net effect on the byte list, which is
prefix insertion at the packet start.  Errors from `ensure!` leave the
buffer exactly as the Rust code leaves it at that point. -/

structure PacketEncoder where
  buf : List Nat
  compressBuf : List Nat
  compressionThreshold : Option Nat
  cipher : Option (List Nat)
deriving DecidableEq

/-- `PacketEncoder::append_packet` (codec.rs lines 50-133) on an
already-serialized packet body.  Returns the new state and a success flag
(`false` models the `ensure!` bail with "packet exceeds maximum length"). -/
def PacketEncoder.appendPacket (compress : List Nat → List Nat)
    (e : PacketEncoder) (body : List Nat) : PacketEncoder × Bool :=
  let dataLen := body.length
  match e.compressionThreshold with
  | some threshold =>
    if threshold < dataLen then
      let compressed := compress body
      let dataLenSize := writtenSize dataLen
      let packetLen := dataLenSize + compressed.length
      if packetLen ≤ MAX_PACKET_SIZE then
        ({ e with
            buf := e.buf ++ varIntEncode packetLen ++ varIntEncode dataLen ++ compressed,
            compressBuf := compressed }, true)
      else
        ({ e with buf := e.buf ++ body, compressBuf := compressed }, false)
    else
      let packetLen := 1 + dataLen
      if packetLen ≤ MAX_PACKET_SIZE then
        ({ e with buf := e.buf ++ varIntEncode packetLen ++ varIntEncode 0 ++ body }, true)
      else
        ({ e with buf := e.buf ++ body }, false)
  | none =>
    if dataLen ≤ MAX_PACKET_SIZE then
      ({ e with buf := e.buf ++ varIntEncode dataLen ++ body }, true)
    else
      ({ e with buf := e.buf ++ body }, false)

/-- `PacketEncoder::take` (codec.rs lines 137-143): encrypt the pending
buffer in place when a cipher is installed, then detach it. -/
def PacketEncoder.take (e : PacketEncoder) (F : List Nat → Nat) :
    List Nat × PacketEncoder :=
  match e.cipher with
  | none => (e.buf, { e with buf := [] })
  | some reg =>
    ((cfb8Encrypt F reg e.buf).1,
      { e with buf := [], cipher := some (cfb8Encrypt F reg e.buf).2 })

/-- A fresh `PacketEncoder` with the given configuration
(`PacketEncoder::new` plus `set_compression` / `enable_encryption`). -/
def freshEncoder (thr : Option Nat) (key : Option (List Nat)) : PacketEncoder :=
  { buf := [], compressBuf := [], compressionThreshold := thr, cipher := key }

/-! ## PacketDecoder (codec.rs lines 259-465)

The zlib inflate is the parameter `decompress`; the generic packet type `P`
is modelled as the raw packet body, whose `decode_packet` consumes every
remaining byte (the proxy treats play packets as opaque byte frames). -/

structure PacketDecoder where
  buf : List Nat
  cursor : Nat
  decompressBuf : List Nat
  compressionEnabled : Bool
  cipher : Option (List Nat)
deriving DecidableEq

/-- The queued-but-undelivered region `[cursor, len)` of the decoder buffer. -/
def PacketDecoder.visible (d : PacketDecoder) : List Nat := d.buf.drop d.cursor

/-- `PacketDecoder::try_next_packet` (codec.rs lines 273-341).  Returns the
new state together with `ok none` ("no packet yet"), `ok (some body)`, or an
error. -/
def PacketDecoder.tryNextPacket (decompress : List Nat → Option (List Nat))
    (d : PacketDecoder) : PacketDecoder × Except String (Option (List Nat)) :=
  let d := { d with buf := d.buf.drop d.cursor, cursor := 0 }
  match varIntDecodeFrom 0 0 d.buf with
  | .incomplete => (d, .ok none)
  | .tooLarge => (d, .error "malformed packet length VarInt")
  | .ok packetLen r =>
    if packetLen ≤ MAX_PACKET_SIZE then
      if r.length < packetLen then (d, .ok none)
      else
        let r := r.take packetLen
        if d.compressionEnabled then
          match varIntDecodeFrom 0 0 r with
          | .incomplete => (d, .error "malformed data length VarInt")
          | .tooLarge => (d, .error "malformed data length VarInt")
          | .ok dataLen r2 =>
            if dataLen < MAX_PACKET_SIZE then
              if dataLen ≠ 0 then
                match decompress r2 with
                | none => (d, .error "decompressing packet")
                | some pt =>
                  ({ d with
                      cursor := writtenSize packetLen + packetLen,
                      decompressBuf := pt.take dataLen },
                    .ok (some (pt.take dataLen)))
              else
                ({ d with cursor := writtenSize packetLen + packetLen }, .ok (some r2))
            else
              (d, .error "decompressed packet length is out of bounds")
        else
          ({ d with cursor := writtenSize packetLen + packetLen }, .ok (some r))
    else
      (d, .error "packet length is out of bounds")

/-- `PacketDecoder::has_next_packet` (codec.rs lines 404-419): a read-only
predicate over the bytes after the cursor. -/
def PacketDecoder.hasNextPacket (d : PacketDecoder) : Except String Bool :=
  match varIntDecodeFrom 0 0 (d.buf.drop d.cursor) with
  | .ok packetLen r =>
    if packetLen ≤ MAX_PACKET_SIZE then .ok (packetLen ≤ r.length)
    else .error "packet length is out of bounds"
  | .incomplete => .ok false
  | .tooLarge => .error "malformed packet length VarInt"

/-- `PacketDecoder::queue_bytes` (codec.rs lines 434-442): decrypt the
incoming chunk when a cipher is installed, then append it. -/
def PacketDecoder.queueBytes (d : PacketDecoder) (F : List Nat → Nat)
    (bs : List Nat) : PacketDecoder :=
  match d.cipher with
  | none => { d with buf := d.buf ++ bs }
  | some reg =>
    { d with
        buf := d.buf ++ (cfb8Decrypt F reg bs).1,
        cipher := some (cfb8Decrypt F reg bs).2 }

/-- `PacketDecoder::queue_slice` (codec.rs lines 444-452): append first,
then decrypt the newly appended range in place. -/
def PacketDecoder.queueSlice (d : PacketDecoder) (F : List Nat → Nat)
    (bs : List Nat) : PacketDecoder :=
  let extended := d.buf ++ bs
  match d.cipher with
  | none => { d with buf := extended }
  | some reg =>
    { d with
        buf := extended.take d.buf.length ++
          (cfb8Decrypt F reg (extended.drop d.buf.length)).1,
        cipher := some (cfb8Decrypt F reg (extended.drop d.buf.length)).2 }

/-- `PacketDecoder::enable_encryption` (codec.rs lines 425-432): install the
cipher and decrypt the bytes already queued after the cursor. -/
def PacketDecoder.enableEncryption (d : PacketDecoder) (F : List Nat → Nat)
    (key : List Nat) : PacketDecoder :=
  { d with
      buf := d.buf.take d.cursor ++ (cfb8Decrypt F key (d.buf.drop d.cursor)).1,
      cipher := some (cfb8Decrypt F key (d.buf.drop d.cursor)).2 }

/-- A fresh `PacketDecoder` configured to mirror an encoder: compression on
exactly when a threshold is set, ciphered with the same key. -/
def freshDecoder (thr : Option Nat) (key : Option (List Nat)) : PacketDecoder :=
  { buf := [], cursor := 0, decompressBuf := [], compressionEnabled := thr.isSome,
    cipher := key }

/-! ## Framing lemmas -/

theorem MAX_lt_two_pow : MAX_PACKET_SIZE < 2 ^ 32 := by norm_num [MAX_PACKET_SIZE]

/-- Uncompressed branch of `append_packet` (codec.rs lines 116-132). -/
theorem appendPacket_plain (compress : List Nat → List Nat) (e : PacketEncoder)
    (body : List Nat) (he : e.compressionThreshold = none)
    (h : body.length ≤ MAX_PACKET_SIZE) :
    e.appendPacket compress body =
      ({ e with buf := e.buf ++ varIntEncode body.length ++ body }, true) := by
  unfold PacketEncoder.appendPacket
  rw [he]
  simp [h]

/-- Below-threshold branch of `append_packet` (codec.rs lines 89-111): the
frame is `varint(1 + data_len)`, the one-byte varint of 0, then the body. -/
theorem appendPacket_marker (compress : List Nat → List Nat) (e : PacketEncoder)
    (body : List Nat) (t : Nat) (he : e.compressionThreshold = some t)
    (hle : ¬ t < body.length) (h : 1 + body.length ≤ MAX_PACKET_SIZE) :
    e.appendPacket compress body =
      ({ e with
          buf := e.buf ++ varIntEncode (1 + body.length) ++ varIntEncode 0 ++ body },
        true) := by
  unfold PacketEncoder.appendPacket
  rw [he]
  simp [hle, h]

/-- Above-threshold branch of `append_packet` (codec.rs lines 66-88): the
frame is `varint(packet_len)`, `varint(data_len)`, then the deflated body. -/
theorem appendPacket_compressed (compress : List Nat → List Nat)
    (e : PacketEncoder) (body : List Nat) (t : Nat)
    (he : e.compressionThreshold = some t) (hgt : t < body.length)
    (h : writtenSize body.length + (compress body).length ≤ MAX_PACKET_SIZE) :
    e.appendPacket compress body =
      ({ e with
          buf := e.buf ++
            varIntEncode (writtenSize body.length + (compress body).length) ++
            varIntEncode body.length ++ compress body,
          compressBuf := compress body }, true) := by
  unfold PacketEncoder.appendPacket
  rw [he]
  simp [hgt, h]

/-- Decoding one plain frame (compression off). -/
theorem tryNextPacket_plain (decompress : List Nat → Option (List Nat))
    (d : PacketDecoder) (body : List Nat) (hc : d.cursor = 0)
    (hcomp : d.compressionEnabled = false)
    (hbuf : d.buf = varIntEncode body.length ++ body)
    (h : body.length ≤ MAX_PACKET_SIZE) :
    (d.tryNextPacket decompress).2 = .ok (some body) := by
  unfold PacketDecoder.tryNextPacket
  rw [hc, hbuf]
  simp only [List.drop_zero]
  rw [varIntDecode_encode body.length body (by have := MAX_lt_two_pow; omega)]
  simp [h, hcomp, List.take_length]

/-- Decoding one frame carrying the uncompressed marker (compression on,
`data_len = 0`). -/
theorem tryNextPacket_marker (decompress : List Nat → Option (List Nat))
    (d : PacketDecoder) (body : List Nat) (hc : d.cursor = 0)
    (hcomp : d.compressionEnabled = true)
    (hbuf : d.buf = varIntEncode (1 + body.length) ++ varIntEncode 0 ++ body)
    (h : 1 + body.length ≤ MAX_PACKET_SIZE) :
    (d.tryNextPacket decompress).2 = .ok (some body) := by
  have hlen : (varIntEncode 0 ++ body).length = 1 + body.length := by
    simp [varIntEncode_zero]
    omega
  have htake : (varIntEncode 0 ++ body).take (1 + body.length) =
      varIntEncode 0 ++ body := by
    rw [← hlen]
    exact List.take_length _
  have hdec2 : varIntDecodeFrom 0 0 (varIntEncode 0 ++ body) = .ok 0 body :=
    varIntDecode_encode 0 body (by norm_num)
  have hm : 0 < MAX_PACKET_SIZE := by norm_num [MAX_PACKET_SIZE]
  unfold PacketDecoder.tryNextPacket
  rw [hc, hbuf]
  simp only [List.drop_zero, List.append_assoc]
  rw [varIntDecode_encode (1 + body.length) (varIntEncode 0 ++ body)
    (by have := MAX_lt_two_pow; omega)]
  simp [h, hcomp, hlen, htake, hdec2, hm]

/-- Decoding one compressed frame (compression on, `data_len ≠ 0`). -/
theorem tryNextPacket_compressed (decompress : List Nat → Option (List Nat))
    (d : PacketDecoder) (body cb : List Nat) (hc : d.cursor = 0)
    (hcomp : d.compressionEnabled = true)
    (hbuf : d.buf =
      varIntEncode (writtenSize body.length + cb.length) ++
        varIntEncode body.length ++ cb)
    (hdec : decompress cb = some body)
    (h : writtenSize body.length + cb.length ≤ MAX_PACKET_SIZE)
    (hlt : body.length < MAX_PACKET_SIZE) (hne : body.length ≠ 0) :
    (d.tryNextPacket decompress).2 = .ok (some body) := by
  have hlen : (varIntEncode body.length ++ cb).length =
      writtenSize body.length + cb.length := by
    simp [writtenSize]
  have htake : (varIntEncode body.length ++ cb).take
      (writtenSize body.length + cb.length) = varIntEncode body.length ++ cb := by
    rw [← hlen]
    exact List.take_length _
  have hdec2 : varIntDecodeFrom 0 0 (varIntEncode body.length ++ cb) =
      .ok body.length cb :=
    varIntDecode_encode body.length cb (by have := MAX_lt_two_pow; omega)
  unfold PacketDecoder.tryNextPacket
  rw [hc, hbuf]
  simp only [List.drop_zero, List.append_assoc]
  rw [varIntDecode_encode (writtenSize body.length + cb.length)
    (varIntEncode body.length ++ cb) (by have := MAX_lt_two_pow; omega)]
  simp [h, hcomp, hlen, htake, hdec2, hlt, hne, hdec, List.take_length]

/-- Taking a fresh encoder's buffer and queueing it into an identically
configured fresh decoder reproduces the buffer: without a key this is a
plain move, with a key the encrypt/decrypt pair cancels. -/
theorem queue_of_take (F : List Nat → Nat) (thr : Option Nat)
    (key : Option (List Nat)) (cb frame : List Nat) :
    (freshDecoder thr key).queueBytes F
        ((PacketEncoder.mk frame cb thr key).take F).1 =
      { freshDecoder thr key with
          buf := frame,
          cipher := ((PacketEncoder.mk frame cb thr key).take F).2.cipher } := by
  cases key with
  | none => simp [PacketDecoder.queueBytes, PacketEncoder.take, freshDecoder]
  | some k =>
    simp only [PacketDecoder.queueBytes, PacketEncoder.take, freshDecoder]
    have h := cfb8_roundtrip F k frame
    simp only [h]
    simp

theorem queue_of_take_fields (F : List Nat → Nat) (thr : Option Nat)
    (key : Option (List Nat)) (cb frame : List Nat) :
    ((freshDecoder thr key).queueBytes F
        ((PacketEncoder.mk frame cb thr key).take F).1).buf = frame ∧
    ((freshDecoder thr key).queueBytes F
        ((PacketEncoder.mk frame cb thr key).take F).1).cursor = 0 ∧
    ((freshDecoder thr key).queueBytes F
        ((PacketEncoder.mk frame cb thr key).take F).1).compressionEnabled =
      thr.isSome := by
  rw [queue_of_take]
  simp [freshDecoder]

/-- The side condition of the (amended) framing round trip: the frame fits in
`MAX_PACKET_SIZE` and, on the compressed path, the body length itself lies
strictly below `MAX_PACKET_SIZE` (the decoder's bound on `data_len` is
strict while the encoder never checks it). -/
def frameFits (compress : List Nat → List Nat) (thr : Option Nat)
    (body : List Nat) : Prop :=
  match thr with
  | none => body.length ≤ MAX_PACKET_SIZE
  | some t =>
    if t < body.length then
      writtenSize body.length + (compress body).length ≤ MAX_PACKET_SIZE ∧
        body.length < MAX_PACKET_SIZE
    else 1 + body.length ≤ MAX_PACKET_SIZE

/-- C1 (amended).  Framing round trip: for every packet body whose encoded
frame fits in `MAX_PACKET_SIZE` — and, when compression is on with
`threshold < |b|`, whose length is strictly below `MAX_PACKET_SIZE` —
appending the body with `PacketEncoder::append_packet`, taking the bytes
with `take()`, queueing them into an identically configured `PacketDecoder`
and calling `try_next_packet` yields exactly the body, for every combination
of compression off / on below threshold / on above threshold, and encryption
off / on with both sides keyed identically.  The zlib pair and the AES block
function are parameters constrained only by inflate inverting deflate. -/
theorem framing_roundtrip (F : List Nat → Nat) (compress : List Nat → List Nat)
    (decompress : List Nat → Option (List Nat))
    (hcd : ∀ x, decompress (compress x) = some x)
    (thr : Option Nat) (key : Option (List Nat)) (body : List Nat)
    (hfit : frameFits compress thr body) :
    ((freshEncoder thr key).appendPacket compress body).2 = true ∧
    (((freshDecoder thr key).queueBytes F
        (((freshEncoder thr key).appendPacket compress body).1.take F).1).tryNextPacket
      decompress).2 = Except.ok (some body) := by
  cases thr with
  | none =>
    simp only [frameFits] at hfit
    have happ := appendPacket_plain compress (freshEncoder none key) body rfl hfit
    refine ⟨by rw [happ], ?_⟩
    rw [happ]
    have hrec : ({ freshEncoder none key with
        buf := (freshEncoder none key).buf ++ varIntEncode body.length ++ body },
          true).1 =
        PacketEncoder.mk (varIntEncode body.length ++ body) [] none key := by
      simp [freshEncoder]
    rw [hrec]
    obtain ⟨hb, hcur, hcomp⟩ :=
      queue_of_take_fields F none key [] (varIntEncode body.length ++ body)
    exact tryNextPacket_plain decompress _ body hcur (by simpa using hcomp) hb hfit
  | some t =>
    by_cases hgt : t < body.length
    · simp only [frameFits, if_pos hgt] at hfit
      obtain ⟨hsz, hlt⟩ := hfit
      have happ := appendPacket_compressed compress (freshEncoder (some t) key)
        body t rfl hgt hsz
      refine ⟨by rw [happ], ?_⟩
      rw [happ]
      have hrec : ({ freshEncoder (some t) key with
          buf := (freshEncoder (some t) key).buf ++
            varIntEncode (writtenSize body.length + (compress body).length) ++
            varIntEncode body.length ++ compress body,
          compressBuf := compress body }, true).1 =
          PacketEncoder.mk
            (varIntEncode (writtenSize body.length + (compress body).length) ++
              varIntEncode body.length ++ compress body)
            (compress body) (some t) key := by
        simp [freshEncoder]
      rw [hrec]
      obtain ⟨hb, hcur, hcomp⟩ := queue_of_take_fields F (some t) key
        (compress body)
        (varIntEncode (writtenSize body.length + (compress body).length) ++
          varIntEncode body.length ++ compress body)
      exact tryNextPacket_compressed decompress _ body (compress body) hcur
        (by simpa using hcomp) hb (hcd body) hsz hlt (by omega)
    · simp only [frameFits, if_neg hgt] at hfit
      have happ := appendPacket_marker compress (freshEncoder (some t) key)
        body t rfl hgt hfit
      refine ⟨by rw [happ], ?_⟩
      rw [happ]
      have hrec : ({ freshEncoder (some t) key with
          buf := (freshEncoder (some t) key).buf ++
            varIntEncode (1 + body.length) ++ varIntEncode 0 ++ body }, true).1 =
          PacketEncoder.mk
            (varIntEncode (1 + body.length) ++ varIntEncode 0 ++ body)
            [] (some t) key := by
        simp [freshEncoder]
      rw [hrec]
      obtain ⟨hb, hcur, hcomp⟩ := queue_of_take_fields F (some t) key []
        (varIntEncode (1 + body.length) ++ varIntEncode 0 ++ body)
      exact tryNextPacket_marker decompress _ body hcur (by simpa using hcomp)
        hb hfit

/-- Block-cipher instance used by the concrete framing examples. -/
def probeF : List Nat → Nat := fun reg => reg.headD 0

/-- Deflate instance used by the framing witness. -/
def probeCompress : List Nat → List Nat := fun x => 0 :: x

/-- Inflate instance inverting `probeCompress`. -/
def probeDecompress : List Nat → Option (List Nat) := fun c =>
  match c with
  | 0 :: r => some r
  | _ => none

theorem framing_roundtrip_witness :
    ((freshEncoder (some 1) (some (List.replicate 16 7))).appendPacket
      probeCompress [9, 9]).2 = true ∧
    (((freshDecoder (some 1) (some (List.replicate 16 7))).queueBytes probeF
        (((freshEncoder (some 1) (some (List.replicate 16 7))).appendPacket
          probeCompress [9, 9]).1.take probeF).1).tryNextPacket
      probeDecompress).2 = Except.ok (some [9, 9]) :=
  framing_roundtrip probeF probeCompress probeDecompress (fun _ => rfl) (some 1)
    (some (List.replicate 16 7)) [9, 9]
    (by
      simp only [frameFits]
      rw [if_pos (by decide)]
      exact ⟨by decide, by decide⟩)

/-- A body of length exactly `MAX_PACKET_SIZE`. -/
def c1Body : List Nat := List.replicate MAX_PACKET_SIZE 0

/-- Deflate instance for the counterexample: it shrinks `c1Body` to a single
byte and is injective everywhere else. -/
def c1Compress : List Nat → List Nat := fun b =>
  if b = c1Body then [7] else 0 :: b

/-- Inflate instance inverting `c1Compress` on all inputs. -/
def c1Decompress : List Nat → Option (List Nat) := fun c =>
  if c = [7] then some c1Body
  else
    match c with
    | 0 :: r => some r
    | _ => none

/-- Compressed frame whose `data_len` is not strictly below
`MAX_PACKET_SIZE`: the decoder rejects it. -/
theorem tryNextPacket_compressed_oversize
    (decompress : List Nat → Option (List Nat)) (d : PacketDecoder)
    (n : Nat) (cb : List Nat) (hc : d.cursor = 0)
    (hcomp : d.compressionEnabled = true)
    (hbuf : d.buf = varIntEncode (writtenSize n + cb.length) ++
      varIntEncode n ++ cb)
    (h : writtenSize n + cb.length ≤ MAX_PACKET_SIZE)
    (hn32 : n < 2 ^ 32) (hge : ¬ n < MAX_PACKET_SIZE) :
    (d.tryNextPacket decompress).2 =
      .error "decompressed packet length is out of bounds" := by
  have hlen : (varIntEncode n ++ cb).length = writtenSize n + cb.length := by
    simp [writtenSize]
  have htake : (varIntEncode n ++ cb).take (writtenSize n + cb.length) =
      varIntEncode n ++ cb := by
    rw [← hlen]
    exact List.take_length _
  have hdec2 : varIntDecodeFrom 0 0 (varIntEncode n ++ cb) = .ok n cb :=
    varIntDecode_encode n cb hn32
  unfold PacketDecoder.tryNextPacket
  rw [hc, hbuf]
  simp only [List.drop_zero, List.append_assoc]
  rw [varIntDecode_encode (writtenSize n + cb.length)
    (varIntEncode n ++ cb) (by have := MAX_lt_two_pow; omega)]
  simp [h, hcomp, hlen, htake, hdec2, hge]

theorem c1Body_length : c1Body.length = MAX_PACKET_SIZE := by
  simp [c1Body]

theorem c1Compress_body : c1Compress c1Body = [7] := by
  simp [c1Compress]

/-- C1 counterexample: with a zlib pair satisfying the round-trip law, a
body of length exactly `MAX_PACKET_SIZE` and compression threshold 0, the
encoder accepts the frame (its encoded size is far below
`MAX_PACKET_SIZE`), yet `try_next_packet` rejects it — the round trip of the
claim fails even though the encoded size is within bounds. -/
theorem framing_roundtrip_counterexample :
    (∀ x, c1Decompress (c1Compress x) = some x) ∧
    ((freshEncoder (some 0) none).appendPacket c1Compress c1Body).2 = true ∧
    writtenSize c1Body.length + (c1Compress c1Body).length ≤ MAX_PACKET_SIZE ∧
    (((freshDecoder (some 0) none).queueBytes probeF
        (((freshEncoder (some 0) none).appendPacket c1Compress c1Body).1.take
          probeF).1).tryNextPacket c1Decompress).2 =
      Except.error "decompressed packet length is out of bounds" ∧
    (((freshDecoder (some 0) none).queueBytes probeF
        (((freshEncoder (some 0) none).appendPacket c1Compress c1Body).1.take
          probeF).1).tryNextPacket c1Decompress).2 ≠
      Except.ok (some c1Body) := by
  have hcd : ∀ x, c1Decompress (c1Compress x) = some x := by
    intro x
    by_cases hx : x = c1Body
    · subst hx
      simp [c1Compress, c1Decompress]
    · simp [c1Compress, c1Decompress, hx]
  have hlenl : c1Body.length = 2097151 := by
    unfold c1Body
    rw [List.length_replicate]
    rfl
  have hsz : writtenSize c1Body.length + (c1Compress c1Body).length ≤
      MAX_PACKET_SIZE := by
    rw [hlenl, c1Compress_body]
    decide
  have hgt : 0 < c1Body.length := by
    rw [hlenl]
    decide
  have happ := appendPacket_compressed c1Compress (freshEncoder (some 0) none)
    c1Body 0 rfl hgt hsz
  rw [hlenl, c1Compress_body] at happ
  have hws : writtenSize 2097151 + List.length [7] = 4 := by decide
  rw [hws] at happ
  simp only [freshEncoder, List.nil_append] at happ
  have hfst : ((freshEncoder (some 0) none).appendPacket c1Compress c1Body).1 =
      PacketEncoder.mk (varIntEncode 4 ++ varIntEncode 2097151 ++ [7]) [7]
        (some 0) none := by
    unfold freshEncoder
    rw [happ]
  have herr : (((freshDecoder (some 0) none).queueBytes probeF
      (((freshEncoder (some 0) none).appendPacket c1Compress c1Body).1.take
        probeF).1).tryNextPacket c1Decompress).2 =
      Except.error "decompressed packet length is out of bounds" := by
    rw [hfst]
    obtain ⟨hb, hcur, hcomp⟩ := queue_of_take_fields probeF (some 0) none [7]
      (varIntEncode 4 ++ varIntEncode 2097151 ++ [7])
    refine tryNextPacket_compressed_oversize c1Decompress _ 2097151 [7] hcur
      (by simpa using hcomp) ?_ (by decide) (by decide) (by decide)
    rw [hws]
    exact hb
  refine ⟨hcd, by unfold freshEncoder; rw [happ], hsz, herr, ?_⟩
  rw [herr]
  simp

/-! ## Encoder failure behaviour (claim C2) -/

/-- A body one byte longer than `MAX_PACKET_SIZE`, which every branch of
`append_packet` rejects. -/
def c2Body : List Nat := List.replicate 2097152 0

theorem c2Body_length : c2Body.length = 2097152 := by
  unfold c2Body
  rw [List.length_replicate]

theorem c2_append_fails :
    ((freshEncoder none none).appendPacket (fun x => x) c2Body).2 = false := by
  have h2 : ¬ (c2Body.length ≤ MAX_PACKET_SIZE) := by
    rw [c2Body_length]
    decide
  simp only [PacketEncoder.appendPacket, freshEncoder]
  simp [h2]

/-- C2 counterexample: `append_packet` on an empty encoder with a body of
`MAX_PACKET_SIZE + 1` zero bytes fails, yet the output buffer is no longer
the (empty) buffer it held before the call — the `ensure!` fires after the
body was appended and nothing removes it. -/
theorem encoder_atomicity_counterexample :
    ((freshEncoder none none).appendPacket (fun x => x) c2Body).2 = false ∧
    ((freshEncoder none none).appendPacket (fun x => x) c2Body).1.buf ≠
      (freshEncoder none none).buf := by
  have h2 : ¬ (c2Body.length ≤ MAX_PACKET_SIZE) := by
    rw [c2Body_length]
    decide
  refine ⟨c2_append_fails, ?_⟩
  have hbuf : ((freshEncoder none none).appendPacket (fun x => x) c2Body).1.buf =
      [] ++ c2Body := by
    simp only [PacketEncoder.appendPacket, freshEncoder]
    simp [h2]
  rw [hbuf]
  intro heq
  have hlen := congrArg List.length heq
  rw [List.nil_append, c2Body_length] at hlen
  simp [freshEncoder] at hlen

/-- C2 (amended).  `append_packet` is not atomic on failure: whenever it
returns an error (the frame would exceed `MAX_PACKET_SIZE`), the encoder's
output buffer holds the previous contents followed by the raw packet body —
the partially written body remains, though no length prefix or compressed
payload is added. -/
theorem encoder_append_failure_state (compress : List Nat → List Nat)
    (e : PacketEncoder) (body : List Nat)
    (h : (e.appendPacket compress body).2 = false) :
    (e.appendPacket compress body).1.buf = e.buf ++ body := by
  unfold PacketEncoder.appendPacket at h ⊢
  cases hthr : e.compressionThreshold with
  | none =>
    rw [hthr] at h
    by_cases hle : body.length ≤ MAX_PACKET_SIZE
    · simp [hle] at h
    · simp [hle]
  | some t =>
    rw [hthr] at h
    by_cases hgt : t < body.length
    · by_cases hle :
        writtenSize body.length + (compress body).length ≤ MAX_PACKET_SIZE
      · simp [hgt, hle] at h
      · simp [hgt, hle]
    · by_cases hle : 1 + body.length ≤ MAX_PACKET_SIZE
      · simp [hgt, hle] at h
      · simp [hgt, hle]

theorem encoder_append_failure_witness :
    ((freshEncoder none none).appendPacket (fun x => x) c2Body).1.buf =
      (freshEncoder none none).buf ++ c2Body :=
  encoder_append_failure_state (fun x => x) (freshEncoder none none) c2Body
    c2_append_fails

/-! ## Connection-level compression negotiation (claim C3)

`Connection::set_compression` (connection.rs lines 39-43) and the
compression step of `Lure::handle_login` (lure.rs lines 269-276).  Sends are
tracked at packet granularity: `sent` is the sequence of packets written to
the peer socket. -/

/-- A login-phase packet sent to the peer, as far as claim C3 observes it. -/
inductive SentPacket where
  | setCompression (threshold : Nat)
  | loginSuccess
deriving DecidableEq

/-- The connection state claim C3 observes: the two framers plus the
sequence of packets already written to the peer. -/
structure ProxyConn where
  enc : PacketEncoder
  dec : PacketDecoder
  sent : List SentPacket
deriving DecidableEq

/-- `Connection::send` at packet granularity: the packet is appended to the
wire. -/
def ProxyConn.sendPacket (c : ProxyConn) (p : SentPacket) : ProxyConn :=
  { c with sent := c.sent ++ [p] }

/-- `Connection::set_compression` (connection.rs lines 39-43): it only
enables compression on the local decoder and sets the encoder threshold —
it writes nothing to the socket. -/
def ProxyConn.setCompression (c : ProxyConn) (t : Nat) : ProxyConn :=
  { c with
      dec := { c.dec with compressionEnabled := true },
      enc := { c.enc with compressionThreshold := some t } }

/-- The compression step of `Lure::handle_login` (lure.rs lines 269-276):
when the configured threshold is positive, send `SetCompression{threshold}`
and then call `Connection::set_compression`. -/
def handleLoginCompression (c : ProxyConn) (compression : Nat) : ProxyConn :=
  if 0 < compression then
    (c.sendPacket (.setCompression compression)).setCompression compression
  else c

/-- A fresh connection with both framers at their defaults. -/
def freshConn : ProxyConn :=
  { enc := freshEncoder none none, dec := freshDecoder none none, sent := [] }

/-- C3 counterexample: `Connection::set_compression` itself sends nothing —
on a fresh connection its wire stays empty instead of gaining the
`SetCompression` packet the claim requires. -/
theorem set_compression_counterexample :
    (freshConn.setCompression 256).sent ≠
      freshConn.sent ++ [SentPacket.setCompression 256] := by
  decide

/-- C3 (amended).  `Connection::set_compression(t)` only enables compression
on the connection's decoder and encoder and sends nothing; the
`SetCompression{threshold: t}` packet is sent by `handle_login` immediately
before calling it (whenever the configured threshold is positive), so after
the handle_login compression step the packet is on the wire and compression
is enabled on both framers. -/
theorem compression_enable_order (c : ProxyConn) (t : Nat) (h : 0 < t) :
    (handleLoginCompression c t).sent = c.sent ++ [SentPacket.setCompression t] ∧
    (handleLoginCompression c t).dec.compressionEnabled = true ∧
    (handleLoginCompression c t).enc.compressionThreshold = some t ∧
    (ProxyConn.setCompression c t).sent = c.sent := by
  refine ⟨?_, ?_, ?_, rfl⟩ <;>
    simp [handleLoginCompression, h, ProxyConn.sendPacket, ProxyConn.setCompression]

theorem compression_enable_order_witness :
    (handleLoginCompression freshConn 256).sent =
      freshConn.sent ++ [SentPacket.setCompression 256] ∧
    (handleLoginCompression freshConn 256).dec.compressionEnabled = true ∧
    (handleLoginCompression freshConn 256).enc.compressionThreshold = some 256 ∧
    (ProxyConn.setCompression freshConn 256).sent = freshConn.sent :=
  compression_enable_order freshConn 256 (by decide)

/-! ## Compression threshold boundary (claim C4) -/

/-- C4.  With compression enabled at threshold `t`, a body of length exactly
`t` is framed uncompressed — `varint(1 + t)`, then the single zero byte
`varint(0)`, then the raw body — while a body of length `t + 1` is framed
compressed — `varint(written_size(t+1) + |deflate(body)|)`, then
`varint(t + 1)`, then the deflated bytes (the deflate at level 4 is the
`compress` parameter). -/
theorem compression_threshold_boundary (compress : List Nat → List Nat)
    (t : Nat) (key : Option (List Nat)) (b1 b2 : List Nat)
    (h1 : b1.length = t) (h2 : b2.length = t + 1)
    (hs1 : 1 + t ≤ MAX_PACKET_SIZE)
    (hs2 : writtenSize (t + 1) + (compress b2).length ≤ MAX_PACKET_SIZE) :
    ((freshEncoder (some t) key).appendPacket compress b1).1.buf =
      varIntEncode (1 + t) ++ varIntEncode 0 ++ b1 ∧
    ((freshEncoder (some t) key).appendPacket compress b1).2 = true ∧
    varIntEncode 0 = [0] ∧
    ((freshEncoder (some t) key).appendPacket compress b2).1.buf =
      varIntEncode (writtenSize (t + 1) + (compress b2).length) ++
        varIntEncode (t + 1) ++ compress b2 ∧
    ((freshEncoder (some t) key).appendPacket compress b2).2 = true := by
  have happ1 := appendPacket_marker compress (freshEncoder (some t) key) b1 t
    rfl (by omega) (by omega)
  have happ2 := appendPacket_compressed compress (freshEncoder (some t) key)
    b2 t rfl (by omega) (by rw [h2]; exact hs2)
  refine ⟨?_, by rw [happ1], varIntEncode_zero, ?_, by rw [happ2]⟩
  · rw [happ1, h1]
    simp [freshEncoder]
  · rw [happ2, h2]
    simp [freshEncoder]

theorem compression_threshold_boundary_witness :
    ((freshEncoder (some 2) none).appendPacket probeCompress [5, 5]).1.buf =
      varIntEncode (1 + 2) ++ varIntEncode 0 ++ [5, 5] ∧
    ((freshEncoder (some 2) none).appendPacket probeCompress [5, 5]).2 = true ∧
    varIntEncode 0 = [0] ∧
    ((freshEncoder (some 2) none).appendPacket probeCompress [5, 5, 5]).1.buf =
      varIntEncode (writtenSize 3 + (probeCompress [5, 5, 5]).length) ++
        varIntEncode 3 ++ probeCompress [5, 5, 5] ∧
    ((freshEncoder (some 2) none).appendPacket probeCompress [5, 5, 5]).2 = true :=
  compression_threshold_boundary probeCompress 2 none [5, 5] [5, 5, 5]
    (by decide) (by decide) (by decide) (by decide)

/-! ## BungeeCord forwarding address (claim C5)

`Lure::handle_play` (lure.rs lines 458-467) builds the upstream handshake's
`server_address`.  The UUID is a 128-bit number; `format!("{}", uuid)` uses
the uuid crate's `Display`, which is the hyphenated lowercase form. -/

/-- Lowercase hexadecimal digits. -/
def hexDigitChars : List Char := "0123456789abcdef".data

def hexChar (n : Nat) : Char := hexDigitChars.getD n '0'

/-- Fixed-width big-endian hexadecimal rendering of `n`. -/
def natToHexPad (n digits : Nat) : List Char :=
  (List.range digits).map (fun j => hexChar (n / 16 ^ (digits - 1 - j) % 16))

/-- The uuid crate's `Display`: 8-4-4-4-12 hyphenated lowercase hex. -/
def uuidHyphenated (u : Nat) : String :=
  let s := natToHexPad u 32
  String.mk (s.take 8 ++ '-' :: (s.drop 8).take 4 ++ '-' :: (s.drop 12).take 4 ++
    '-' :: (s.drop 16).take 4 ++ '-' :: s.drop 20)

/-- The undashed 32-digit form required by the BungeeCord convention. -/
def uuidSimple (u : Nat) : String := String.mk (natToHexPad u 32)

/-- The `server_address` `Lure::handle_play` sends upstream (lure.rs lines
458-467): in bungeecord mode, backend IP, NUL, the client address up to the
first ':', NUL, `format!("{}", uuid)` (hyphenated Display), NUL, the
properties JSON; otherwise just the backend IP. -/
def clientIpOf (s : String) : String :=
  String.mk (s.data.takeWhile (fun c => c ≠ ':'))

def handshakeAddress (forwardMode backendIp clientAddr : String) (uuid : Nat)
    (propsJson : String) : String :=
  if forwardMode = "bungeecord" then
    backendIp ++ "\x00" ++ clientIpOf clientAddr ++ "\x00" ++
      uuidHyphenated uuid ++ "\x00" ++ propsJson
  else backendIp

/-- C5.  Evaluating the code at UUID 12345 shows that the bungeecord
`server_address` carries the hyphenated `Display` form of the UUID, not the
undashed form the BungeeCord convention (and the claim) requires; every
other forward mode sends just the backend IP. -/
theorem bungeecord_forwarding_eval :
    handshakeAddress "bungeecord" "127.0.0.1" "10.0.0.5:54321" 12345 "[]" =
      "127.0.0.1\x0010.0.0.5\x0000000000-0000-0000-0000-000000003039\x00[]" ∧
    handshakeAddress "bungeecord" "127.0.0.1" "10.0.0.5:54321" 12345 "[]" ≠
      "127.0.0.1\x0010.0.0.5\x00" ++ uuidSimple 12345 ++ "\x00[]" ∧
    uuidSimple 12345 = "00000000000000000000000000003039" ∧
    handshakeAddress "none" "127.0.0.1" "10.0.0.5:54321" 12345 "[]" =
      "127.0.0.1" := by
  refine ⟨?_, ?_, ?_, ?_⟩ <;> decide

/-! ## Mojang session digest (claim C7)

`Lure::login_online` (lure.rs lines 329-340): the SHA-1 of the shared
secret followed by the DER public key (the server id is the empty string
and contributes no bytes), fed through num-bigint's
`BigInt::from_signed_bytes_be` and `to_str_radix(16)`.  SHA-1 itself is an
external collaborator, passed as the parameter `sha1`. -/

/-- Hex rendering of a natural number without leading zeros (num-bigint's
`to_str_radix(16)` on a non-negative magnitude).  The fuel of 64 covers
numbers below `16 ^ 64`, far beyond any 20-byte SHA-1 magnitude. -/
def natHexAux (fuel n : Nat) : List Char :=
  match fuel with
  | 0 => []
  | fuel + 1 =>
    if n < 16 then [hexChar n] else natHexAux fuel (n / 16) ++ [hexChar (n % 16)]

def natHexStr (n : Nat) : String := String.mk (natHexAux 64 n)

/-- `BigInt::from_signed_bytes_be`: two's-complement big-endian bytes. -/
def fromSignedBytesBE (bs : List Nat) : Int :=
  let u : Nat := bs.foldl (fun a b => a * 256 + b % 256) 0
  match bs with
  | [] => 0
  | b :: _ => if 128 ≤ b % 256 then (u : Int) - (256 : Int) ^ bs.length else (u : Int)

/-- num-bigint's `to_str_radix(16)`: sign, then the magnitude in hex. -/
def toStrRadix16 (i : Int) : String :=
  if i < 0 then "-" ++ natHexStr i.natAbs else natHexStr i.toNat

/-- The serverId digest string of `login_online`:
`Sha1::new().chain(shared_secret).chain(public_key)` (the empty server id
contributes nothing), then signed-big-endian interpretation and hex
formatting. -/
def authDigest (sha1 : List Nat → List Nat) (secret pubDer : List Nat) : String :=
  toStrRadix16 (fromSignedBytesBE (sha1 (secret ++ pubDer)))

theorem hexChar_ne_dash (k : Nat) : hexChar k ≠ '-' := by
  rcases Nat.lt_or_ge k 16 with h | h
  · interval_cases k <;> decide
  · have h16 : hexDigitChars.length = 16 := by decide
    have : hexDigitChars.length ≤ k := by omega
    rw [hexChar, List.getD_eq_default _ _ this]
    decide

/-- Every character `natHexAux` emits is a hex digit. -/
theorem natHexAux_chars : ∀ (fuel n : Nat), ∀ c ∈ natHexAux fuel n,
    ∃ k, c = hexChar k := by
  intro fuel
  induction fuel with
  | zero => intro n c hc; simp [natHexAux] at hc
  | succ fuel ih =>
    intro n c hc
    by_cases h : n < 16
    · simp [natHexAux, h] at hc
      exact ⟨n, hc⟩
    · simp only [natHexAux, if_neg h, List.mem_append] at hc
      rcases hc with hc | hc
      · exact ih _ c hc
      · simp at hc
        exact ⟨n % 16, hc⟩

theorem natHexAux_ne_nil (fuel n : Nat) (hf : 1 ≤ fuel) :
    natHexAux fuel n ≠ [] := by
  cases fuel with
  | zero => omega
  | succ fuel =>
    by_cases h : n < 16
    · simp [natHexAux, h]
    · simp [natHexAux, h]

/-- The byte-fold of `fromSignedBytesBE` is bounded by `256 ^ length`. -/
theorem byteFold_lt : ∀ (bs : List Nat) (acc : Nat),
    bs.foldl (fun a b => a * 256 + b % 256) acc < (acc + 1) * 256 ^ bs.length := by
  intro bs
  induction bs with
  | nil => intro acc; simp
  | cons b rest ih =>
    intro acc
    have h1 := ih (acc * 256 + b % 256)
    have h2 : b % 256 ≤ 255 := by omega
    have h3 : (acc * 256 + b % 256 + 1) * 256 ^ rest.length ≤
        (acc + 1) * (256 ^ rest.length * 256) := by
      have : (acc * 256 + b % 256 + 1) ≤ (acc + 1) * 256 := by omega
      calc (acc * 256 + b % 256 + 1) * 256 ^ rest.length ≤
            ((acc + 1) * 256) * 256 ^ rest.length :=
              Nat.mul_le_mul_right _ this
        _ = (acc + 1) * (256 ^ rest.length * 256) := by ring
    simp only [List.foldl_cons, List.length_cons]
    calc List.foldl (fun a b => a * 256 + b % 256) (acc * 256 + b % 256) rest <
          (acc * 256 + b % 256 + 1) * 256 ^ rest.length := h1
      _ ≤ (acc + 1) * (256 ^ rest.length * 256) := h3
      _ = (acc + 1) * 256 ^ (rest.length + 1) := by ring

/-- C7.  The serverId sent to the Mojang session server is the SHA-1 of the
empty server-id bytes, the shared secret and the DER public key, interpreted
as a signed big-endian big integer and rendered as signed hexadecimal: for
any 20-byte digest the rendered string has a leading '-' exactly when the
digest's top bit is set. -/
theorem session_digest_sign (sha1 : List Nat → List Nat)
    (secret pubDer : List Nat) (h20 : (sha1 (secret ++ pubDer)).length = 20)
    (hbytes : ∀ b ∈ sha1 (secret ++ pubDer), b < 256) :
    authDigest sha1 secret pubDer =
      toStrRadix16 (fromSignedBytesBE (sha1 (([] : List Nat) ++ secret ++ pubDer))) ∧
    ((authDigest sha1 secret pubDer).data.head? = some '-' ↔
      128 ≤ (sha1 (secret ++ pubDer)).headD 0) := by
  refine ⟨by rw [List.nil_append]; rfl, ?_⟩
  obtain ⟨b, t, hbt⟩ : ∃ b t, sha1 (secret ++ pubDer) = b :: t := by
    cases hl : sha1 (secret ++ pubDer) with
    | nil => rw [hl] at h20; simp at h20
    | cons b t => exact ⟨b, t, rfl⟩
  have hb256 : b < 256 := hbytes b (by rw [hbt]; exact List.mem_cons_self b t)
  have hbmod : b % 256 = b := Nat.mod_eq_of_lt hb256
  have hu : (sha1 (secret ++ pubDer)).foldl (fun a c => a * 256 + c % 256) 0 <
      256 ^ (sha1 (secret ++ pubDer)).length := by
    have := byteFold_lt (sha1 (secret ++ pubDer)) 0
    simpa using this
  unfold authDigest fromSignedBytesBE
  rw [hbt] at hu h20 ⊢
  simp only [List.headD_cons, hbmod]
  set U : Nat := List.foldl (fun a b => a * 256 + b % 256) 0 (b :: t) with hU
  by_cases hsign : 128 ≤ b
  · rw [if_pos hsign]
    have hneg : (U : Int) - (256 : Int) ^ (b :: t).length < 0 := by
      have hcast := Int.ofNat_lt.mpr hu
      have hpow : (((256 : Nat) ^ (b :: t).length : Nat) : Int) =
          (256 : Int) ^ (b :: t).length := by
        push_cast
        ring
      rw [hpow] at hcast
      omega
    unfold toStrRadix16
    rw [if_pos hneg]
    simp only [String.data_append]
    constructor
    · intro
      exact hsign
    · intro
      rfl
  · rw [if_neg hsign]
    have hpos : ¬ ((U : Int) < 0) := by
      have := Int.natCast_nonneg U
      omega
    unfold toStrRadix16
    rw [if_neg hpos]
    constructor
    · intro hhead
      exfalso
      have hmem : '-' ∈ natHexAux 64 ((U : Int)).toNat := by
        apply List.mem_of_mem_head?
        simpa [natHexStr] using hhead
      obtain ⟨k, hk⟩ := natHexAux_chars 64 _ '-' hmem
      exact hexChar_ne_dash k hk.symm
    · intro hc
      omega

/-- SHA-1 instance (a fixed 20-byte digest with the top bit set) used by the
digest witness. -/
def probeSha1 : List Nat → List Nat := fun _ => 128 :: List.replicate 19 0

theorem session_digest_sign_witness :
    (authDigest probeSha1 [] []).data.head? = some '-' :=
  (session_digest_sign probeSha1 [] [] (by decide) (by decide)).2.mpr (by decide)

/-! ## Online-mode token and secret validation (claim C6)

`Lure::login_online` (lure.rs lines 294-342) after the two RSA decrypts:
first the `ensure!` comparing the decrypted verify token with the token sent
in the `EncryptionRequest` (line 317), then the conversion of the decrypted
shared secret into a 16-byte array (line 322); only when both succeed does
the control flow reach the `reqwest::get` call to the Mojang session server
(line 342). -/

/-- How far `login_online` gets after the RSA decrypts. -/
inductive AuthStep where
  | tokenMismatch
  | secretLengthMismatch
  | mojangRequest (digest : String)
deriving DecidableEq

/-- The validation sequence of `login_online`: token equality first, then
the 16-byte secret length, then the session-server request carrying the
digest. -/
def loginOnlineAuth (sha1 : List Nat → List Nat)
    (pubDer serverToken decSecret decToken : List Nat) : AuthStep :=
  if decToken = serverToken then
    if decSecret.length = 16 then
      .mojangRequest (authDigest sha1 decSecret pubDer)
    else .secretLengthMismatch
  else .tokenMismatch

/-- Whether the HTTP request to the Mojang session server was issued. -/
def mojangCalled : AuthStep → Bool
  | .mojangRequest _ => true
  | _ => false

/-- Whether `login_online` failed before producing a profile. -/
def isAuthFailure : AuthStep → Bool
  | .mojangRequest _ => false
  | _ => true

/-- C6.  If the decrypted verify token differs from the token sent in the
`EncryptionRequest`, or the decrypted shared secret is not exactly 16 bytes,
`login_online` fails, and no Mojang session-server request is issued; in the
token-mismatch case the outcome is exactly the token-mismatch error, which
precedes the HTTP call. -/
theorem online_auth_validation (sha1 : List Nat → List Nat)
    (pubDer serverToken decSecret decToken : List Nat)
    (h : decToken ≠ serverToken ∨ decSecret.length ≠ 16) :
    isAuthFailure (loginOnlineAuth sha1 pubDer serverToken decSecret decToken) =
      true ∧
    mojangCalled (loginOnlineAuth sha1 pubDer serverToken decSecret decToken) =
      false ∧
    (decToken ≠ serverToken →
      loginOnlineAuth sha1 pubDer serverToken decSecret decToken =
        .tokenMismatch) := by
  by_cases ht : decToken = serverToken
  · rcases h with h | h
    · exact absurd ht h
    · subst ht
      simp [loginOnlineAuth, h, isAuthFailure, mojangCalled]
  · simp [loginOnlineAuth, ht, isAuthFailure, mojangCalled]

theorem online_auth_validation_witness :
    isAuthFailure (loginOnlineAuth probeSha1 [] (List.replicate 16 1)
      (List.replicate 16 2) (List.replicate 16 3)) = true ∧
    mojangCalled (loginOnlineAuth probeSha1 [] (List.replicate 16 1)
      (List.replicate 16 2) (List.replicate 16 3)) = false ∧
    loginOnlineAuth probeSha1 [] (List.replicate 16 1) (List.replicate 16 2)
      (List.replicate 16 3) = AuthStep.tokenMismatch := by
  have h := online_auth_validation probeSha1 [] (List.replicate 16 1)
    (List.replicate 16 2) (List.replicate 16 3) (Or.inl (by decide))
  exact ⟨h.1, h.2.1, h.2.2 (by decide)⟩

/-! ## Routing resolution and backend dialing (claims C8 and C10)

`Lure::get_default_server` (lure.rs lines 73-88), `Lure::get_server`
(lines 90-99) and the routing prefix of `Lure::handle_play` (lines
399-426).  The config maps are association lists; socket-address parsing is
the external `str::parse::<SocketAddr>`, passed as the predicate
`parseOk`. -/

/-- HashMap lookup on an association list. -/
def lookupA : List (String × String) → String → Option String
  | [], _ => none
  | (k, v) :: rest, key => if k = key then some v else lookupA rest key

/-- `HashMap::contains_key`. -/
def containsKeyA (m : List (String × String)) (k : String) : Bool :=
  (lookupA m k).isSome

/-- `Lure::get_default_server`: the hostname's entry when the key is
present, otherwise the `"*"` entry. -/
def getDefaultServer (hosts : List (String × String)) (hostname : String) :
    Option String :=
  if containsKeyA hosts hostname then lookupA hosts hostname
  else lookupA hosts "*"

/-- `Lure::get_server`. -/
def getServer (servers : List (String × String)) (name : String) :
    Option String :=
  lookupA servers name

/-- `str::replace("\x22", "")`: every double-quote character is removed. -/
def removeQuotes (s : String) : String :=
  String.mk (s.data.filter (fun c => c ≠ '\x22'))

/-- Outcome of the routing prefix of `handle_play`. -/
inductive PlayRoute where
  | disconnected (msg : String) (red : Bool)
  | connect (addr : String)
  | failNoDisconnect
deriving DecidableEq

/-- The routing prefix of `Lure::handle_play` (lure.rs lines 399-426):
resolve the host, resolve the server name, strip quotes from the configured
address, and parse it; the parse error propagates via `?` without any
disconnect being sent. -/
def handlePlayRoute (parseOk : String → Bool)
    (hosts servers : List (String × String)) (hostname : String) : PlayRoute :=
  match getDefaultServer hosts hostname with
  | none => .disconnected "No host found" true
  | some name =>
    match getServer servers name with
    | none =>
      .disconnected
        ("Default server " ++ name ++ " for host " ++ hostname ++
          " doesnt exist.") true
    | some addrStr =>
      if parseOk (removeQuotes addrStr) then .connect (removeQuotes addrStr)
      else .failNoDisconnect

/-- The disconnect messages the routing prefix sends to the client. -/
def disconnectsSent : PlayRoute → List String
  | .disconnected msg _ => [msg]
  | _ => []

/-- C8.  Host resolution falls back to the `"*"` entry exactly when the
hostname key is absent; when neither key exists the client gets a red
`DisconnectPlay` reading "No host found" and the session ends; when the
resolved server name is missing from `servers` the client gets a red
message naming both the missing server name and the host. -/
theorem routing_resolution (parseOk : String → Bool)
    (hosts servers : List (String × String)) (hostname : String) :
    (lookupA hosts hostname = none →
      getDefaultServer hosts hostname = lookupA hosts "*") ∧
    (∀ v, lookupA hosts hostname = some v →
      getDefaultServer hosts hostname = some v) ∧
    (getDefaultServer hosts hostname = none ↔
      (lookupA hosts hostname = none ∧ lookupA hosts "*" = none)) ∧
    (getDefaultServer hosts hostname = none →
      handlePlayRoute parseOk hosts servers hostname =
        .disconnected "No host found" true) ∧
    (∀ name, getDefaultServer hosts hostname = some name →
      lookupA servers name = none →
      handlePlayRoute parseOk hosts servers hostname =
        .disconnected
          ("Default server " ++ name ++ " for host " ++ hostname ++
            " doesnt exist.") true) := by
  refine ⟨?_, ?_, ?_, ?_, ?_⟩
  · intro h
    simp [getDefaultServer, containsKeyA, h]
  · intro v h
    simp [getDefaultServer, containsKeyA, h]
  · constructor
    · intro h
      unfold getDefaultServer containsKeyA at h
      by_cases hl : (lookupA hosts hostname).isSome
      · rw [if_pos hl] at h
        rw [h] at hl
        simp at hl
      · rw [if_neg hl] at h
        simp at hl
        exact ⟨hl, h⟩
    · intro ⟨h1, h2⟩
      simp [getDefaultServer, containsKeyA, h1, h2]
  · intro h
    unfold handlePlayRoute
    rw [h]
  · intro name h1 h2
    simp only [handlePlayRoute, h1, getServer, h2]

theorem routing_resolution_witness :
    handlePlayRoute (fun _ => true) [("*", "lobby")] [] "unknown.example" =
      PlayRoute.disconnected
        "Default server lobby for host unknown.example doesnt exist." true :=
  (routing_resolution (fun _ => true) [("*", "lobby")] [] "unknown.example").2.2.2.2
    "lobby" (by decide) (by decide)

/-- C10.  Before dialing, `handle_play` removes every double-quote character
from the configured server address and only then parses it; a configured
value of `"\x22127.0.0.1:25565\x22"` therefore reaches the parser as
`"127.0.0.1:25565"`, and when the stripped string does not parse the routing
prefix fails without sending the client any disconnect message. -/
theorem server_address_quote_strip (parseOk : String → Bool)
    (hosts servers : List (String × String)) (hostname name addrStr : String)
    (hname : getDefaultServer hosts hostname = some name)
    (haddr : lookupA servers name = some addrStr) :
    (parseOk (removeQuotes addrStr) = true →
      handlePlayRoute parseOk hosts servers hostname =
        .connect (removeQuotes addrStr)) ∧
    (parseOk (removeQuotes addrStr) = false →
      handlePlayRoute parseOk hosts servers hostname = .failNoDisconnect ∧
      disconnectsSent (handlePlayRoute parseOk hosts servers hostname) = []) ∧
    removeQuotes "\x22127.0.0.1:25565\x22" = "127.0.0.1:25565" := by
  have hroute : ∀ (b : PlayRoute),
      (if parseOk (removeQuotes addrStr) then
        PlayRoute.connect (removeQuotes addrStr)
      else PlayRoute.failNoDisconnect) = b →
      handlePlayRoute parseOk hosts servers hostname = b := by
    intro b hb
    simp only [handlePlayRoute, hname, getServer, haddr]
    exact hb
  refine ⟨?_, ?_, by decide⟩
  · intro hp
    exact hroute _ (by rw [hp]; rfl)
  · intro hp
    have h1 := hroute PlayRoute.failNoDisconnect (by rw [hp]; rfl)
    exact ⟨h1, by rw [h1]; rfl⟩

/-! ## Decoder cursor invariant (claim C9) -/

/-- `try_next_packet` keeps the cursor within the buffer and, when it
answers "no packet yet", leaves the queued byte sequence visible from the
cursor untouched. -/
theorem tryNextPacket_state (decompress : List Nat → Option (List Nat))
    (d : PacketDecoder) :
    (d.tryNextPacket decompress).1.cursor ≤
      (d.tryNextPacket decompress).1.buf.length ∧
    ((d.tryNextPacket decompress).2 = Except.ok none →
      (d.tryNextPacket decompress).1.visible = d.visible) := by
  simp only [PacketDecoder.tryNextPacket]
  cases hdec : varIntDecodeFrom 0 0 (d.buf.drop d.cursor) with
  | incomplete =>
    simp [hdec, PacketDecoder.visible]
  | tooLarge =>
    simp [hdec, PacketDecoder.visible]
  | ok pl r =>
    by_cases hpl : pl ≤ MAX_PACKET_SIZE
    · by_cases hlen : r.length < pl
      · simp [hdec, hpl, hlen, PacketDecoder.visible]
      · have hcur : writtenSize pl + pl ≤ (d.buf.drop d.cursor).length := by
          obtain ⟨k, hk1, hkle, hkdrop, hklt, hk32⟩ :=
            varIntDecodeFrom_consumed (d.buf.drop d.cursor) 0 0 pl r
              (by norm_num) (by omega) hdec
          have hrl : r.length = (d.buf.drop d.cursor).length - k := by
            rw [← hkdrop]
            exact List.length_drop _ _
          have hws : writtenSize pl ≤ k := by
            rcases le_or_lt k 5 with h5 | h5
            · exact writtenSize_le pl k hk1 h5 (by simpa using hklt)
            · have h1 : pl < 128 ^ 5 := by
                calc pl < 2 ^ 32 := hk32
                  _ < 128 ^ 5 := by norm_num
              have := writtenSize_le pl 5 (by omega) (by omega) h1
              omega
          omega
        rw [List.length_drop] at hcur
        by_cases hcomp : d.compressionEnabled = true
        · cases hdec2 : varIntDecodeFrom 0 0 (r.take pl) with
          | incomplete =>
            simp [hdec, hpl, hlen, hcomp, hdec2, PacketDecoder.visible]
          | tooLarge =>
            simp [hdec, hpl, hlen, hcomp, hdec2, PacketDecoder.visible]
          | ok dl r2 =>
            have hm : 0 < MAX_PACKET_SIZE := by norm_num [MAX_PACKET_SIZE]
            by_cases hdl : dl < MAX_PACKET_SIZE
            · by_cases hdl0 : dl = 0
              · simp [hdec, hpl, hlen, hcomp, hdec2, hdl, hdl0, hcur, hm]
              · cases hdc : decompress r2 with
                | none =>
                  simp [hdec, hpl, hlen, hcomp, hdec2, hdl, hdl0, hdc,
                    PacketDecoder.visible]
                | some pt =>
                  simp [hdec, hpl, hlen, hcomp, hdec2, hdl, hdl0, hdc, hcur]
            · simp [hdec, hpl, hlen, hcomp, hdec2, hdl, PacketDecoder.visible]
        · simp [hdec, hpl, hlen, hcomp, hcur]
    · simp [hdec, hpl, PacketDecoder.visible]

/-- C9.  Every decoder operation preserves `cursor ≤ buffer length`; the
queueing operations leave the cursor alone and only append (the decrypted
image of) the incoming bytes; `enable_encryption` keeps cursor and buffer
length; `has_next_packet` depends only on the bytes visible from the cursor;
and when `try_next_packet` answers "no packet yet" the queued byte sequence
visible from the cursor is identical before and after the call. -/
theorem decoder_cursor_invariant (F : List Nat → Nat)
    (decompress : List Nat → Option (List Nat)) (d d2 : PacketDecoder)
    (bs key : List Nat) (hwf : d.cursor ≤ d.buf.length) :
    ((d.queueBytes F bs).cursor ≤ (d.queueBytes F bs).buf.length ∧
      (d.queueBytes F bs).cursor = d.cursor ∧
      ∃ q, (d.queueBytes F bs).buf = d.buf ++ q ∧ q.length = bs.length) ∧
    ((d.queueSlice F bs).cursor ≤ (d.queueSlice F bs).buf.length ∧
      (d.queueSlice F bs).cursor = d.cursor ∧
      ∃ q, (d.queueSlice F bs).buf = d.buf ++ q ∧ q.length = bs.length) ∧
    ((d.enableEncryption F key).cursor ≤
        (d.enableEncryption F key).buf.length ∧
      (d.enableEncryption F key).cursor = d.cursor ∧
      (d.enableEncryption F key).buf.length = d.buf.length) ∧
    (d2.visible = d.visible → d2.hasNextPacket = d.hasNextPacket) ∧
    ((d.tryNextPacket decompress).1.cursor ≤
      (d.tryNextPacket decompress).1.buf.length) ∧
    ((d.tryNextPacket decompress).2 = Except.ok none →
      (d.tryNextPacket decompress).1.visible = d.visible) := by
  refine ⟨?_, ?_, ?_, ?_, (tryNextPacket_state decompress d).1,
    (tryNextPacket_state decompress d).2⟩
  · cases hc : d.cipher with
    | none =>
      refine ⟨?_, ?_, bs, ?_, rfl⟩ <;>
        simp [PacketDecoder.queueBytes, hc] <;> omega
    | some reg =>
      refine ⟨?_, ?_, (cfb8Decrypt F reg bs).1, ?_, cfb8Decrypt_length F reg bs⟩ <;>
        simp [PacketDecoder.queueBytes, hc, cfb8Decrypt_length] <;> omega
  · cases hc : d.cipher with
    | none =>
      refine ⟨?_, ?_, bs, ?_, rfl⟩ <;>
        simp [PacketDecoder.queueSlice, hc] <;> omega
    | some reg =>
      have htake : (d.buf ++ bs).take d.buf.length = d.buf := List.take_left _ _
      have hdrop : (d.buf ++ bs).drop d.buf.length = bs := List.drop_left _ _
      refine ⟨?_, ?_, (cfb8Decrypt F reg bs).1, ?_, cfb8Decrypt_length F reg bs⟩ <;>
        simp [PacketDecoder.queueSlice, hc, htake, hdrop, cfb8Decrypt_length] <;>
        omega
  · have hlen : (d.enableEncryption F key).buf.length = d.buf.length := by
      simp [PacketDecoder.enableEncryption, cfb8Decrypt_length,
        List.length_take, List.length_drop]
      omega
    refine ⟨?_, rfl, hlen⟩
    rw [hlen]
    exact hwf
  · intro hv
    unfold PacketDecoder.visible at hv
    unfold PacketDecoder.hasNextPacket
    rw [hv]

theorem decoder_cursor_invariant_witness :
    ((freshDecoder none none).queueBytes probeF [1]).cursor ≤
      ((freshDecoder none none).queueBytes probeF [1]).buf.length ∧
    (((freshDecoder none none).tryNextPacket probeDecompress).2 =
        Except.ok none →
      ((freshDecoder none none).tryNextPacket probeDecompress).1.visible =
        (freshDecoder none none).visible) :=
  ⟨(decoder_cursor_invariant probeF probeDecompress (freshDecoder none none)
      (freshDecoder none none) [1] (List.replicate 16 0) (by decide)).1.1,
    (decoder_cursor_invariant probeF probeDecompress (freshDecoder none none)
      (freshDecoder none none) [1] (List.replicate 16 0) (by decide)).2.2.2.2.2⟩

theorem server_address_quote_strip_witness :
    handlePlayRoute (fun s => s == "127.0.0.1:25565") [("*", "lobby")]
      [("lobby", "\x22127.0.0.1:25565\x22")] "unknown.example" =
      PlayRoute.connect (removeQuotes "\x22127.0.0.1:25565\x22") :=
  (server_address_quote_strip (fun s => s == "127.0.0.1:25565") [("*", "lobby")]
    [("lobby", "\x22127.0.0.1:25565\x22")] "unknown.example" "lobby"
    "\x22127.0.0.1:25565\x22" (by decide) (by decide)).1 (by decide)

end Lure
